import Mathlib

/-!
Shallow embedding of the swap-execution engine of src/pancakeSwapWeb3.js
(a PancakeSwap V3 trading tool): unit conversion, fee-tier selection, pool
validation, the three-level quoting fallback, the slippage bound, the
honeypot heuristic, nonce sequencing, the checksummed-address pair sort and
the four buy/sell entry points, together with theorems settling the
specification claims about them.

Chain interactions (reads of balances, pools, the quoter, and transaction
submission) are modelled as an explicit environment of `Except`-valued
oracle fields; a `.error` value stands for a rejected promise at that call
site.  Submitted transactions are collected in a log so that theorems can
speak about what was submitted before an error.
-/

deriving instance DecidableEq for Except

namespace PST

/-- Decimal digit characters. -/
def isDigitCh (c : Char) : Bool :=
  c = '0' || c = '1' || c = '2' || c = '3' || c = '4' ||
  c = '5' || c = '6' || c = '7' || c = '8' || c = '9'

/-- Every character of the string is a decimal digit. -/
def isDigits (s : List Char) : Bool := s.all isDigitCh

/-- Numeric value of a decimal digit character. -/
def digitVal (c : Char) : Nat := c.toNat - 48

/-- Numeric value of a decimal digit string (most significant digit first). -/
def natVal (s : List Char) : Nat := s.foldl (fun acc c => acc * 10 + digitVal c) 0

/-- Source line 355/360/365: the JS idiom of replacing the regex of leading
zeros by the empty string and falling back to the string "0" when the result
is empty. -/
def stripLeadingZeros (s : List Char) : List Char :=
  match s.dropWhile (fun c => c = '0') with
  | [] => ['0']
  | r => r

/-- JS `split` at the first dot, first component (`parts[0]` in the source). -/
def wholePart (s : List Char) : List Char := s.takeWhile (fun c => c ≠ '.')

/-- JS `split` at dots, second component (`parts[1]` in the source). -/
def fracPart (s : List Char) : List Char :=
  ((s.dropWhile (fun c => c ≠ '.')).drop 1).takeWhile (fun c => c ≠ '.')

/-- Source lines 336-366 (`toTokenUnits`, manual branch for decimals outside
the set handled by the web3 unit table): split at the decimal point, truncate
excess fractional digits, right-pad missing ones with zeros, trim leading
zeros of the whole part, concatenate, and strip leading zeros of the result
falling back to "0". -/
def toTokenUnitsManual (s : List Char) (decimals : Nat) : List Char :=
  if s.contains '.' then
    let whole := wholePart s
    let fractional := fracPart s
    let fracAdj :=
      if fractional.length > decimals then fractional.take decimals
      else fractional ++ List.replicate (decimals - fractional.length) '0'
    let trimmedWhole := stripLeadingZeros whole
    stripLeadingZeros (trimmedWhole ++ fracAdj)
  else
    stripLeadingZeros (s ++ List.replicate decimals '0')

/-- Modelled semantics of the web3 library function `web3.utils.toWei(amount,
unit)`, which source line 332 calls for decimal counts in the standard unit
table: the decimal point is shifted right by the unit's decimal count, and
the library raises a too-many-decimal-places error (instead of truncating)
when the amount has more fractional digits than the unit allows. -/
def toWeiModel (s : List Char) (decimals : Nat) : Except Unit (List Char) :=
  if s.contains '.' then
    let whole := wholePart s
    let fractional := fracPart s
    if fractional.length > decimals then .error ()
    else .ok (stripLeadingZeros (whole ++ fractional ++ List.replicate (decimals - fractional.length) '0'))
  else .ok (stripLeadingZeros (s ++ List.replicate decimals '0'))

/-- Decimal counts for which source line 331 takes the `web3.utils.toWei`
branch via `getEtherUnit` (kwei, mwei, gwei, microether, milliether, ether). -/
def standardDecimals : List Nat := [3, 6, 9, 12, 15, 18]

/-- Source lines 328-374 (`toTokenUnits`): dispatch between the web3 unit
conversion for standard decimal counts and the manual string conversion
otherwise.  A library error propagates as the function's thrown conversion
error (the surrounding catch rethrows). -/
def toTokenUnits (s : List Char) (decimals : Nat) : Except Unit (List Char) :=
  if standardDecimals.contains decimals then toWeiModel s decimals
  else .ok (toTokenUnitsManual s decimals)

/-- Source lines 395-398: prepend '0' while the length is at most `decimals`,
so the result has length `max (s.length) (decimals + 1)`. -/
def padLeftZeros (s : List Char) (decimals : Nat) : List Char :=
  List.replicate (decimals + 1 - s.length) '0' ++ s

/-- Remove the trailing run of '0' characters. -/
def dropTrailingZeros (s : List Char) : List Char :=
  (s.reverse.dropWhile (fun c => c = '0')).reverse

/-- Source line 405: JS `replace` with the anchored regex of an optional dot
followed by one or more zeros at the end of the string: when the string ends
in at least one '0', the trailing zero run is removed together with a dot
immediately preceding the run; otherwise the string is unchanged (note that a
string ending in a bare dot is NOT trimmed, since the regex requires at least
one zero). -/
def trimTrailingZerosDot (s : List Char) : List Char :=
  let r := s.reverse
  if r.takeWhile (fun c => c = '0') = [] then s
  else
    match r.dropWhile (fun c => c = '0') with
    | [] => []
    | c :: rest => if c = '.' then rest.reverse else (c :: rest).reverse

/-- Source lines 392-405 (`fromTokenUnits`, manual branch): early return for
"0", pad on the left until longer than `decimals`, insert the decimal point
`decimals` places from the right, and trim with the trailing-zeros regex. -/
def fromTokenUnitsManual (s : List Char) (decimals : Nat) : List Char :=
  if s = ['0'] then ['0']
  else
    let padded := padLeftZeros s decimals
    let pos := padded.length - decimals
    trimTrailingZerosDot (padded.take pos ++ '.' :: padded.drop pos)

/-- Modelled semantics of the web3 library function `web3.utils.fromWei`,
which source line 386 calls for standard decimal counts: split off the last
`decimals` digits as the fraction, trim the fraction's trailing zeros, and
omit the separator entirely when the fraction is zero. -/
def fromWeiModel (s : List Char) (decimals : Nat) : List Char :=
  let padded := padLeftZeros s decimals
  let pos := padded.length - decimals
  let whole := padded.take pos
  let frac := dropTrailingZeros (padded.drop pos)
  if frac = [] then whole else whole ++ '.' :: frac

/-- Source lines 382-410 (`fromTokenUnits`): dispatch between the web3 unit
conversion for standard decimal counts and the manual string conversion
otherwise. -/
def fromTokenUnits (s : List Char) (decimals : Nat) : List Char :=
  if standardDecimals.contains decimals then fromWeiModel s decimals
  else fromTokenUnitsManual s decimals

/-- An integer part is in canonical decimal form: either exactly "0" or a
nonempty digit string without a leading zero. -/
def canonicalWhole (w : List Char) : Bool :=
  w == ['0'] || (isDigits w && !w.isEmpty && !(w.headI == '0'))

/-- A fractional part is in canonical decimal form: a digit string without a
trailing zero (possibly empty, meaning the amount is an integer). -/
def canonicalFrac (f : List Char) : Bool :=
  isDigits f && !(f.getLast? == some '0')

/-- The decimal string with integer part `w` and fractional part `f` (no dot
when `f` is empty). -/
def mkDecimal (w f : List Char) : List Char :=
  if f.isEmpty then w else w ++ '.' :: f

/-- Source lines 705-725 and 974-994: the slippage bound.  The divisor is the
constant 10000; the guard against a zero divisor is kept from the source
although it can never fire. -/
def amountOutMin (expectedOutput slippageBps : Nat) : Nat :=
  let slippageFactor := 10000 - slippageBps
  let divisor := 10000
  if divisor = 0 then expectedOutput
  else expectedOutput * slippageFactor / divisor

/-- The specification's formula for the slippage bound: the floor of the
exact rational `expectedOutput * (10000 - slippageBps) / 10000`. -/
def minOutputSpec (expectedOutput slippageBps : Nat) : Nat :=
  Nat.floor ((expectedOutput : ℚ) * ((10000 : ℚ) - (slippageBps : ℚ)) / 10000)

/-- Source lines 43-65 (`getNextNonce`): outcome of the chain read performed
on one call.  `ok n` means `getTransactionCount` resolved with `n` (possibly
a stale value); `failWith fb` means the first read rejected and the fallback
read at line 61 resolved with `fb = some m` or itself rejected (`fb = none`,
in which case the call raises). -/
inductive ReadOutcome where
  | ok (pending : Nat)
  | failWith (fallback : Option Nat)

/-- Source lines 46-57: one successful call with a resolved chain read.
Adopt the chain value when the cache is absent or behind it, otherwise
increment the cache; return the cached value. -/
def getNextNonceStep (cache : Option Nat) (onChain : Nat) : Option Nat × Nat :=
  match cache with
  | none => (some onChain, onChain)
  | some c => if c < onChain then (some onChain, onChain) else (some (c + 1), c + 1)

/-- Source lines 43-65: one call including the error path, which leaves the
cache untouched and returns the fallback read's value (or raises, `none`). -/
def getNextNonceFull (cache : Option Nat) : ReadOutcome → Option Nat × Option Nat
  | .ok n => let r := getNextNonceStep cache n; (r.1, some r.2)
  | .failWith fb => (cache, fb)

/-- Sequential calls to `getNextNonce` for one address, every chain read
resolving (with possibly stale values); returns the final cache and the list
of returned nonces. -/
def getNextNonceRun (cache : Option Nat) : List Nat → Option Nat × List Nat
  | [] => (cache, [])
  | n :: ns =>
    let r := getNextNonceStep cache n
    let rest := getNextNonceRun r.1 ns
    (rest.1, r.2 :: rest.2)

/-- What the engine can observe about one fee tier's pool in
`findBestFeeTier` (source lines 204-281): the factory call itself rejected,
the factory returned the zero-address sentinel, or a pool exists and its
liquidity read either resolved or rejected. -/
inductive TierProbe where
  | noPool
  | poolErr
  | pool (liq : Except Unit Nat)

/-- Liquidity figure a probe contributes to the best-tier scan: only a pool
whose liquidity read resolved contributes (a missing pool, a rejected factory
call, or a rejected liquidity read never update the running maximum). -/
def readLiq : TierProbe → Nat
  | .pool (.ok l) => l
  | _ => 0

/-- Whether the factory reported an existing pool for the tier. -/
def hasPoolProbe : TierProbe → Bool
  | .pool _ => true
  | _ => false

/-- Source line 209: the four fee tiers in ascending order
(0.01%, 0.05%, 0.25%, 1%, in hundredths of a bip). -/
def feeTiersList : List Nat := [100, 500, 2500, 10000]

/-- Source lines 214-245: the scan keeping the tier of strictly greatest
liquidity seen so far (initial best tier 2500, initial maximum 0). -/
def selectAux (env : Nat → TierProbe) : List Nat → Nat → Nat → Nat × Nat
  | [], best, maxL => (best, maxL)
  | t :: ts, best, maxL =>
    if maxL < readLiq (env t) then selectAux env ts t (readLiq (env t))
    else selectAux env ts best maxL

/-- Source lines 204-281 (`findBestFeeTier`): run the liquidity scan; when no
positive liquidity was observed, return the first tier at which a pool exists
at all, defaulting to the 0.25% tier (2500) when none exists. -/
def findBestFeeTier (env : Nat → TierProbe) : Nat :=
  let res := selectAux env feeTiersList 2500 0
  if res.2 = 0 then (feeTiersList.find? (fun t => hasPoolProbe (env t))).getD 2500
  else res.1

/-- Greatest liquidity a probe environment reports over a list of tiers. -/
def liqMax (env : Nat → TierProbe) (l : List Nat) : Nat :=
  (l.map (fun t => readLiq (env t))).foldr max 0

/-- Greatest liquidity observed over the four tiers. -/
def tierMaxLiquidity (env : Nat → TierProbe) : Nat :=
  liqMax env feeTiersList

/-- The fee-tier selection rule as the specification words it: the first tier
(in ascending order) attaining the strictly greatest observed liquidity; if
no positive liquidity was observed, the first tier at which a pool exists;
and the 0.25% default when no pool exists at any tier. -/
def selectBestFeeTierSpec (env : Nat → TierProbe) : Nat :=
  if 0 < tierMaxLiquidity env then
    (feeTiersList.find? (fun t => readLiq (env t) == tierMaxLiquidity env)).getD 2500
  else
    match feeTiersList.find? (fun t => hasPoolProbe (env t)) with
    | some t => t
    | none => 2500

/-- The JS string comparison operator `<`: lexicographic on UTF-16 code
units, a proper prefix comparing smaller. -/
def jsStrLt : List Char → List Char → Bool
  | [], [] => false
  | [], _ :: _ => true
  | _ :: _, [] => false
  | a :: as, b :: bs =>
    if a.toNat < b.toNat then true
    else if b.toNat < a.toNat then false
    else jsStrLt as bs

/-- Case-insensitive value of a hexadecimal digit character (0 for other
characters, so the "0x" prefix contributes nothing). -/
def hexDigitVal (c : Char) : Nat :=
  if c = '1' then 1 else if c = '2' then 2 else if c = '3' then 3
  else if c = '4' then 4 else if c = '5' then 5 else if c = '6' then 6
  else if c = '7' then 7 else if c = '8' then 8 else if c = '9' then 9
  else if c = 'a' ∨ c = 'A' then 10 else if c = 'b' ∨ c = 'B' then 11
  else if c = 'c' ∨ c = 'C' then 12 else if c = 'd' ∨ c = 'D' then 13
  else if c = 'e' ∨ c = 'E' then 14 else if c = 'f' ∨ c = 'F' then 15
  else 0

/-- Numeric value of a hexadecimal address string (case-insensitive). -/
def hexVal (s : List Char) : Nat := s.foldl (fun acc c => acc * 16 + hexDigitVal c) 0

/-- Source lines 472-475, 630-632, 899-901, 1182-1184, 1407-1409: the pair
passed to the factory is ordered by comparing the checksummed address strings
with the JS string operator, the smaller string first.  The arguments are the
checksummed forms produced by the web3 library for the two addresses. -/
def sortTokensForPool (csA csB : List Char) : List Char × List Char :=
  if jsStrLt csA csB then (csA, csB) else (csB, csA)

/-- EIP-55 checksummed form of the WETH contract address, a well-known
mixed-case form whose first hexadecimal letter is upper case. -/
def wethChecksum : List Char := "0xC02aaA39b223FE8D0A0e5C4F27eAD9083C756Cc2".toList

/-- Checksummed WBNB address exactly as written in src/utils/constants.js. -/
def wbnbChecksum : List Char := "0xbb4CdB9CBd36B01bD1cBaEBF2De08d9173bc095c".toList

/-- Transactions submitted by an entry point, in submission order.  A
submission attempt is logged whether or not the node accepts it. -/
inductive Tx where
  | approval (nonce : Nat)
  | swap (nonce amountIn amountOutMin : Nat)
deriving DecidableEq

/-- Error categories surfaced by the entry points. -/
inductive Err where
  | invalidKey
  | readFailure
  | insufficientBalance
  | tokenInfoFailure
  | conversionFailure
  | noValidPool
  | honeypotSuspected
  | quoteFailure
  | approvalFailed
  | revert
  | refErrorTokenContract
  | couldNotEstimate
deriving DecidableEq

/-- Oracle environment for one entry-point call: the outcome of every chain
interaction the call can perform.  Pool reads are per fee tier.  The nonce
read inside the pipelines is modelled as resolving with `pendingNonce` (the
failure behaviour of the sequencer itself is modelled separately by
`getNextNonceFull`).  `wbnbIsToken0` records which side of the canonically
sorted pair WBNB occupies (the outcome of the checksummed-string
comparison). -/
structure Env where
  account : Except Unit Nat
  bnbBalance : Except Unit Nat
  tokenBalance : Except Unit Nat
  tokenDecimals : Except Unit Nat
  getPool : Nat → Except Unit (Option Nat)
  liquidity : Nat → Except Unit Nat
  slot0 : Nat → Except Unit Nat
  code : Except Unit (List Char)
  quoter : Except Unit Nat
  allowance : Except Unit Nat
  gasPrice : Except Unit Nat
  estimateGas : Except Unit Nat
  sendApprove : Except Unit Nat
  sendSwap : Except Unit Nat
  pendingNonce : Nat
  wbnbIsToken0 : Bool

/-- The same environment with a different bytecode-read outcome. -/
def withCode (e : Env) (c : Except Unit (List Char)) : Env := { e with code := c }

/-- View of the environment's per-tier pool information as a probe for
`findBestFeeTier`. -/
def Env.probe (e : Env) (fee : Nat) : TierProbe :=
  match e.getPool fee with
  | .error _ => .poolErr
  | .ok none => .noPool
  | .ok (some _) => .pool (e.liquidity fee)

/-- Source lines 470-522 (`validatePancakeV3Pool`): fail closed on a missing
pool, on raw liquidity at most 1000000, on an uninitialized price
(`sqrtPriceX96` equal to 0), and on any read error. -/
def validatePancakeV3Pool (e : Env) (feeTier : Nat) : Bool :=
  match e.getPool feeTier with
  | .error _ => false
  | .ok none => false
  | .ok (some _) =>
    match e.liquidity feeTier with
    | .error _ => false
    | .ok l =>
      if l ≤ 1000000 then false
      else
        match e.slot0 feeTier with
        | .error _ => false
        | .ok s => if s = 0 then false else true

/-- Whether the second string starts with the first. -/
def startsWithStr : List Char → List Char → Bool
  | [], _ => true
  | _ :: _, [] => false
  | x :: xs, y :: ys => x == y && startsWithStr xs ys

/-- JS `String.includes`: the first string occurs contiguously in the second. -/
def containsSubstr (needle : List Char) : List Char → Bool
  | [] => needle.isEmpty
  | c :: rest => startsWithStr needle (c :: rest) || containsSubstr needle rest

/-- Source lines 440-462 (`checkForHoneypot`): flag bytecode longer than the
50000 threshold or containing all three marker substrings; resolve to
`false` on a read error.  (The totalSupply read at line 452 carries its own
catch, is never used, and is omitted.) -/
def checkForHoneypot (e : Env) : Bool :=
  match e.code with
  | .error _ => false
  | .ok code =>
    decide (code.length > 50000) ||
    (containsSubstr "owner".toList code && containsSubstr "blacklist".toList code &&
      containsSubstr "swap".toList code)

/-- Source lines 643-682 (and 1195-1234): the pool-state price estimate of
the buy paths.  `price` is the WBNB-per-token spot price derived from
`sqrtPriceX96` (reciprocal form when WBNB is token0), adjusted by
`10 ^ (18 - decimals)` and applied to the input with a 10% haircut.  The
explicit guard on a zero squared price is the source's own thrown error,
recovered by the caller; the guard on a zero division factor is kept from
the source although `10 ^ 18` is never zero.  (The decimal adjustment models
the big-number power on the exponent's magnitude, faithful for decimals at
most 18; a discrepancy there could only change the estimated value, never
the error behaviour.) -/
def buyCalcEstimate (wbnbIsToken0 : Bool) (tokenDecimals sqrtPriceX96 inputAmount : Nat) :
    Except Unit Nat :=
  let q96 := 2 ^ 96
  let priceE : Except Unit Nat :=
    if wbnbIsToken0 then
      let s2 := sqrtPriceX96 * sqrtPriceX96
      if s2 = 0 then .error () else .ok (q96 * q96 / s2)
    else .ok (sqrtPriceX96 * sqrtPriceX96 / (q96 * q96))
  match priceE with
  | .error u => .error u
  | .ok p =>
    let price := p * 10 ^ (18 - tokenDecimals)
    let divisionFactor := 10 ^ (18 : Nat)
    if divisionFactor = 0 then .error ()
    else .ok (inputAmount * price / divisionFactor * 90 / 100)

/-- Source lines 912-957 (and 1420-1465): the pool-state price estimate of
the sell paths (reciprocal form when the token is token0; decimal adjustment
with exponent `decimals - 18` and division factor `10 ^ decimals`). -/
def sellCalcEstimate (tokenIsToken0 : Bool) (tokenDecimals sqrtPriceX96 inputAmount : Nat) :
    Except Unit Nat :=
  let q96 := 2 ^ 96
  let priceE : Except Unit Nat :=
    if tokenIsToken0 then
      let s2 := sqrtPriceX96 * sqrtPriceX96
      if s2 = 0 then .error () else .ok (q96 * q96 / s2)
    else .ok (sqrtPriceX96 * sqrtPriceX96 / (q96 * q96))
  match priceE with
  | .error u => .error u
  | .ok p =>
    let price := p * 10 ^ (tokenDecimals - 18)
    let divisionFactor := 10 ^ tokenDecimals
    if divisionFactor = 0 then .error ()
    else .ok (inputAmount * price / divisionFactor * 90 / 100)

/-- Source lines 599-703 (`buyToken` quoting): level 1 is the on-chain
quoter; on its failure level 2 reads the pool and its price state, any
failure or absence there (a rejected factory call, the zero-address
sentinel, a rejected slot0 read, or an error inside the price calculation)
falling through to the level-3 minimal value 1000. -/
def quoteBuyAuto (e : Env) (feeTier tokenDecimals inputAmount : Nat) : Except Err Nat :=
  match e.quoter with
  | .ok amt => .ok amt
  | .error _ =>
    match e.getPool feeTier with
    | .error _ => .ok 1000
    | .ok none => .ok 1000
    | .ok (some _) =>
      match e.slot0 feeTier with
      | .error _ => .ok 1000
      | .ok sqrtP =>
        match buyCalcEstimate e.wbnbIsToken0 tokenDecimals sqrtP inputAmount with
        | .error _ => .ok 1000
        | .ok v => .ok v

/-- Source lines 867-972 (`sellToken` quoting): same structure as the buy
side with the sell-side price calculation. -/
def quoteSellAuto (e : Env) (feeTier tokenDecimals inputAmount : Nat) : Except Err Nat :=
  match e.quoter with
  | .ok amt => .ok amt
  | .error _ =>
    match e.getPool feeTier with
    | .error _ => .ok 1000
    | .ok none => .ok 1000
    | .ok (some _) =>
      match e.slot0 feeTier with
      | .error _ => .ok 1000
      | .ok sqrtP =>
        match sellCalcEstimate (!e.wbnbIsToken0) tokenDecimals sqrtP inputAmount with
        | .error _ => .ok 1000
        | .ok v => .ok v

/-- Source lines 1150-1247 (`buyTokenWithFeeTier` quoting): unlike the auto
variant, after a quoter failure a missing pool throws at line 1242 and any
error in the level-2 attempt is rethrown at line 1245 as a could-not-estimate
error; only an error inside the price calculation itself still falls through
to the minimal value 1000. -/
def quoteBuyPinned (e : Env) (feeTier tokenDecimals inputAmount : Nat) : Except Err Nat :=
  match e.quoter with
  | .ok amt => .ok amt
  | .error _ =>
    match e.getPool feeTier with
    | .error _ => .error .couldNotEstimate
    | .ok none => .error .couldNotEstimate
    | .ok (some _) =>
      match e.slot0 feeTier with
      | .error _ => .error .couldNotEstimate
      | .ok sqrtP =>
        match buyCalcEstimate e.wbnbIsToken0 tokenDecimals sqrtP inputAmount with
        | .error _ => .ok 1000
        | .ok v => .ok v

/-- Source lines 1375-1472 (`sellTokenWithFeeTier` quoting): same pinned
structure as the buy side with the sell-side price calculation. -/
def quoteSellPinned (e : Env) (feeTier tokenDecimals inputAmount : Nat) : Except Err Nat :=
  match e.quoter with
  | .ok amt => .ok amt
  | .error _ =>
    match e.getPool feeTier with
    | .error _ => .error .couldNotEstimate
    | .ok none => .error .couldNotEstimate
    | .ok (some _) =>
      match e.slot0 feeTier with
      | .error _ => .error .couldNotEstimate
      | .ok sqrtP =>
        match sellCalcEstimate (!e.wbnbIsToken0) tokenDecimals sqrtP inputAmount with
        | .error _ => .ok 1000
        | .ok v => .ok v

/-- Source lines 568-587 (and 843-862): validate the first-choice tier, then
retry the remaining tiers in ascending order, giving up with no valid pool
when all four fail. -/
def chooseValidTier (e : Env) (first : Nat) : Option Nat :=
  if validatePancakeV3Pool e first then some first
  else (feeTiersList.filter (fun f => f ≠ first)).find? (fun f => validatePancakeV3Pool e f)

/-- Source lines 532-796 (`buyToken`): the buy pipeline.  The BNB amount is
taken already converted to wei (the string-to-wei conversion is the unit
converter modelled separately).  Steps in source order: load the signer,
read the BNB balance, balance check, token info, best-tier selection with
cross-tier validation retry, honeypot gate, quoting, slippage bound, nonce,
gas price read, gas estimation (a failed estimation falls back to the 500000
default and never aborts), and the swap submission. -/
def buyToken (e : Env) (bnbAmountWei slippageBps : Nat) : Except Err Nat × List Tx :=
  match e.account with
  | .error _ => (.error .invalidKey, [])
  | .ok _ =>
  match e.bnbBalance with
  | .error _ => (.error .readFailure, [])
  | .ok bal =>
  if bal < bnbAmountWei then (.error .insufficientBalance, [])
  else
  match e.tokenDecimals with
  | .error _ => (.error .tokenInfoFailure, [])
  | .ok decs =>
  match chooseValidTier e (findBestFeeTier e.probe) with
  | none => (.error .noValidPool, [])
  | some feeTier =>
  if checkForHoneypot e then (.error .honeypotSuspected, [])
  else
  match quoteBuyAuto e feeTier decs bnbAmountWei with
  | .error err => (.error err, [])
  | .ok expectedOut =>
  let minOut := amountOutMin expectedOut slippageBps
  let nonce := e.pendingNonce
  match e.gasPrice with
  | .error _ => (.error .readFailure, [])
  | .ok _ =>
  match e.sendSwap with
  | .error _ => (.error .revert, [Tx.swap nonce bnbAmountWei minOut])
  | .ok h => (.ok h, [Tx.swap nonce bnbAmountWei minOut])

/-- Source lines 1105-1324 (`buyTokenWithFeeTier`): the tier-pinned buy
pipeline: no tier retry (a failed validation aborts), honeypot gate, pinned
quoting, the slippage bound computed without the enclosing catch, nonce, gas
price and submission. -/
def buyTokenWithFeeTier (e : Env) (bnbAmountWei slippageBps feeTier : Nat) :
    Except Err Nat × List Tx :=
  match e.account with
  | .error _ => (.error .invalidKey, [])
  | .ok _ =>
  match e.bnbBalance with
  | .error _ => (.error .readFailure, [])
  | .ok bal =>
  if bal < bnbAmountWei then (.error .insufficientBalance, [])
  else
  match e.tokenDecimals with
  | .error _ => (.error .tokenInfoFailure, [])
  | .ok decs =>
  if validatePancakeV3Pool e feeTier then
    if checkForHoneypot e then (.error .honeypotSuspected, [])
    else
      match quoteBuyPinned e feeTier decs bnbAmountWei with
      | .error err => (.error err, [])
      | .ok expectedOut =>
        let minOut := expectedOut * (10000 - slippageBps) / 10000
        let nonce := e.pendingNonce
        match e.gasPrice with
        | .error _ => (.error .readFailure, [])
        | .ok _ =>
          match e.sendSwap with
          | .error _ => (.error .revert, [Tx.swap nonce bnbAmountWei minOut])
          | .ok h => (.ok h, [Tx.swap nonce bnbAmountWei minOut])
  else (.error .noValidPool, [])

/-- Source lines 806-1094 (`sellToken`): the sell pipeline.  After loading
the signer, fetching token info and converting the amount, line 831 reads
`tokenContract.methods.balanceOf` — but no `tokenContract` variable is in
scope anywhere in this function (unlike `sellTokenWithFeeTier`, which
creates one at line 1351).  The name lookup raises a ReferenceError, which
the outer catch rethrows; every statement after line 831 is unreachable. -/
def sellToken (e : Env) (tokenAmount : List Char) (_slippageBps : Nat) :
    Except Err Nat × List Tx :=
  match e.account with
  | .error _ => (.error .invalidKey, [])
  | .ok _ =>
  match e.tokenDecimals with
  | .error _ => (.error .tokenInfoFailure, [])
  | .ok decs =>
  match toTokenUnits tokenAmount decs with
  | .error _ => (.error .conversionFailure, [])
  | .ok _ => (.error .refErrorTokenContract, [])

/-- Source lines 1521-1564: the final phase of the tier-pinned sell after
the approval block: gas price read, gas estimation (failure falls back to
the 500000 default), and the swap submission with the current nonce. -/
def sellSwapPhase (e : Env) (units minOut nonce : Nat) (log : List Tx) :
    Except Err Nat × List Tx :=
  match e.gasPrice with
  | .error _ => (.error .readFailure, log)
  | .ok _ =>
    match e.sendSwap with
    | .error _ => (.error .revert, log ++ [Tx.swap nonce units minOut])
    | .ok h => (.ok h, log ++ [Tx.swap nonce units minOut])

/-- Source lines 1335-1578 (`sellTokenWithFeeTier`): the tier-pinned sell
pipeline: signer, token info, unit conversion, token balance read and check,
pinned pool validation (no retry), pinned quoting, slippage bound, nonce,
allowance check with an unlimited-approval submission when insufficient (the
swap then uses the incremented nonce), and the swap submission.  Note there
is no honeypot check anywhere on this path. -/
def sellTokenWithFeeTier (e : Env) (tokenAmount : List Char) (slippageBps feeTier : Nat) :
    Except Err Nat × List Tx :=
  match e.account with
  | .error _ => (.error .invalidKey, [])
  | .ok _ =>
  match e.tokenDecimals with
  | .error _ => (.error .tokenInfoFailure, [])
  | .ok decs =>
  match toTokenUnits tokenAmount decs with
  | .error _ => (.error .conversionFailure, [])
  | .ok unitsStr =>
  let units := natVal unitsStr
  match e.tokenBalance with
  | .error _ => (.error .readFailure, [])
  | .ok bal =>
  if bal < units then (.error .insufficientBalance, [])
  else
  if validatePancakeV3Pool e feeTier then
    match quoteSellPinned e feeTier decs units with
    | .error err => (.error err, [])
    | .ok expectedOut =>
      let minOut := expectedOut * (10000 - slippageBps) / 10000
      let nonce := e.pendingNonce
      match e.allowance with
      | .error _ => (.error .approvalFailed, [])
      | .ok alw =>
        if alw < units then
          match e.gasPrice with
          | .error _ => (.error .approvalFailed, [])
          | .ok _ =>
            match e.sendApprove with
            | .error _ => (.error .approvalFailed, [Tx.approval nonce])
            | .ok _ => sellSwapPhase e units minOut (nonce + 1) [Tx.approval nonce]
        else sellSwapPhase e units minOut nonce []
  else (.error .noValidPool, [])

/-- A fully healthy environment whose token bytecode nevertheless contains
all three honeypot marker substrings (the heuristic flags it). -/
def envRisky : Env where
  account := .ok 1
  bnbBalance := .ok (10 ^ 18)
  tokenBalance := .ok 5000000000
  tokenDecimals := .ok 9
  getPool := fun _ => .ok (some 7)
  liquidity := fun _ => .ok 2000000
  slot0 := fun _ => .ok 1
  code := .ok ("owner blacklist swap".toList)
  quoter := .ok 42000
  allowance := .ok (10 ^ 30)
  gasPrice := .ok 5
  estimateGas := .ok 100000
  sendApprove := .ok 11
  sendSwap := .ok 777
  pendingNonce := 5
  wbnbIsToken0 := true

/-- An environment whose quoter call rejects and whose factory reports no
pool at any tier (with otherwise healthy reads). -/
def envNoQuote : Env :=
  { envRisky with quoter := .error (), getPool := fun _ => .ok none }

/-- Probes for the scenario with pools at all four tiers and liquidity
values 0, 500, 1200, 300 in ascending tier order. -/
def probesScenario1 : Nat → TierProbe := fun t =>
  if t = 100 then .pool (.ok 0)
  else if t = 500 then .pool (.ok 500)
  else if t = 2500 then .pool (.ok 1200)
  else .pool (.ok 300)

/-- Probes for the scenario with no pool at any tier. -/
def probesScenario2 : Nat → TierProbe := fun _ => .noPool

/-- Probes for the scenario where pools exist (at tiers 500 and 10000) but
no tier reports a positive liquidity value. -/
def probesScenario3 : Nat → TierProbe := fun t =>
  if t = 500 then .pool (.error ())
  else if t = 10000 then .pool (.ok 0)
  else .noPool

/-! ## Theorems -/

/-- C1: the slippage bound submitted by the buy/sell paths is the floor of
the exact rational product, and the two reference values hold. -/
theorem slippage_bound_is_floor :
    (∀ n b, 10 ≤ b → b ≤ 10000 → amountOutMin n b = minOutputSpec n b) ∧
    amountOutMin 10000 100 = 9900 ∧ amountOutMin 10000 10000 = 0 := by
  refine ⟨fun n b _h1 h2 => ?_, by decide, by decide⟩
  unfold amountOutMin minOutputSpec
  have h10 : ¬ ((10000 : Nat) = 0) := by decide
  rw [if_neg h10]
  have hcast : ((10000 : ℚ) - (b : ℚ)) = ((10000 - b : ℕ) : ℚ) := by
    rw [Nat.cast_sub h2]; norm_num
  rw [hcast, ← Nat.cast_mul]
  have hq : ((10000 : ℚ)) = ((10000 : ℕ) : ℚ) := by norm_num
  rw [hq, Nat.floor_div_nat, Nat.floor_natCast]

theorem slippage_bound_is_floor_witness :
    amountOutMin 12345 250 = minOutputSpec 12345 250 :=
  slippage_bound_is_floor.1 12345 250 (by decide) (by decide)

/-- One successful sequencer step from a populated cache returns a value
strictly above the cached one and caches it. -/
theorem getNextNonceStep_progress (c n : Nat) :
    ∃ v, getNextNonceStep (some c) n = (some v, v) ∧ c < v := by
  by_cases h : c < n
  · exact ⟨n, by simp [getNextNonceStep, h], h⟩
  · exact ⟨c + 1, by simp [getNextNonceStep, h], Nat.lt_succ_self c⟩

/-- Values returned by a run started from a populated cache are pairwise
increasing and all strictly above the initial cache value. -/
theorem getNextNonceRun_pairwise (ns : List Nat) :
    ∀ r, List.Pairwise (· < ·) ((getNextNonceRun (some r) ns).2) ∧
      ∀ v ∈ (getNextNonceRun (some r) ns).2, r < v := by
  induction ns with
  | nil => intro r; exact ⟨List.Pairwise.nil, by intro v hv; cases hv⟩
  | cons n ns ih =>
    intro r
    obtain ⟨v, hstep, hrv⟩ := getNextNonceStep_progress r n
    have hrun : getNextNonceRun (some r) (n :: ns)
        = ((getNextNonceRun (some v) ns).1, v :: (getNextNonceRun (some v) ns).2) := by
      simp only [getNextNonceRun, hstep]
    obtain ⟨hpair, hgt⟩ := ih v
    rw [hrun]
    constructor
    · exact List.Pairwise.cons hgt hpair
    · intro w hw
      rcases List.mem_cons.mp hw with rfl | hw'
      · exact hrv
      · exact lt_trans hrv (hgt w hw')

/-- C4: the cached last-issued nonce never decreases (also across calls whose
chain read fails), and sequential successful calls with resolving (possibly
stale) chain reads return pairwise strictly increasing nonces. -/
theorem nonce_monotone_and_strictly_increasing :
    (∀ c o n, (getNextNonceFull (some c) o).1 = some n → c ≤ n) ∧
    (∀ c ns, List.Pairwise (· < ·) ((getNextNonceRun c ns).2)) := by
  constructor
  · intro c o n h
    cases o with
    | ok m =>
      obtain ⟨v, hstep, hcv⟩ := getNextNonceStep_progress c m
      simp only [getNextNonceFull, hstep] at h
      simp only [Option.some.injEq] at h
      omega
    | failWith fb =>
      simp only [getNextNonceFull, Option.some.injEq] at h
      omega
  · intro c ns
    cases c with
    | some r => exact (getNextNonceRun_pairwise ns r).1
    | none =>
      cases ns with
      | nil => exact List.Pairwise.nil
      | cons n ns =>
        have hrun : getNextNonceRun none (n :: ns)
            = ((getNextNonceRun (some n) ns).1, n :: (getNextNonceRun (some n) ns).2) := by
          simp only [getNextNonceRun, getNextNonceStep]
        rw [hrun]
        obtain ⟨hpair, hgt⟩ := getNextNonceRun_pairwise ns n
        exact List.Pairwise.cons hgt hpair

theorem nonce_monotone_and_strictly_increasing_witness : (5 : Nat) ≤ 6 :=
  nonce_monotone_and_strictly_increasing.1 5 (.ok 3) 6 rfl

/-- C8: pool validation succeeds exactly when the factory reports a pool,
its liquidity read resolves strictly above the fixed 1000000 threshold, and
its slot0 read resolves with a nonzero price; it fails closed in every other
case (missing pool, low liquidity, uninitialized price, or any read error). -/
theorem validate_pool_fail_closed (e : Env) (fee : Nat) :
    validatePancakeV3Pool e fee = true ↔
      (∃ p, e.getPool fee = .ok (some p)) ∧
      (∃ l, e.liquidity fee = .ok l ∧ 1000000 < l) ∧
      (∃ s, e.slot0 fee = .ok s ∧ s ≠ 0) := by
  rcases hg : e.getPool fee with u | op
  · simp [validatePancakeV3Pool, hg]
  · rcases op with _ | p
    · simp [validatePancakeV3Pool, hg]
    · rcases hl : e.liquidity fee with u | l
      · simp [validatePancakeV3Pool, hg, hl]
      · rcases hs : e.slot0 fee with u | s
        · by_cases hle : l ≤ 1000000 <;>
            simp [validatePancakeV3Pool, hg, hl, hs, hle]
        · by_cases hle : l ≤ 1000000
          · simp [validatePancakeV3Pool, hg, hl, hs, hle]
          · by_cases hz : s = 0
            · simp [validatePancakeV3Pool, hg, hl, hs, hle, hz]
            · simp [validatePancakeV3Pool, hg, hl, hs, hle, hz]
              omega

theorem validate_pool_fail_closed_witness :
    (∃ p, envRisky.getPool 2500 = .ok (some p)) ∧
    (∃ l, envRisky.liquidity 2500 = .ok l ∧ 1000000 < l) ∧
    (∃ s, envRisky.slot0 2500 = .ok s ∧ s ≠ 0) :=
  (validate_pool_fail_closed envRisky 2500).mp (by decide)

/-- The JS string order is asymmetric. -/
theorem jsStrLt_asymm : ∀ a b : List Char, jsStrLt a b = true → jsStrLt b a = false := by
  intro a
  induction a with
  | nil =>
    intro b h
    cases b with
    | nil => simp [jsStrLt] at h
    | cons y ys => rfl
  | cons x xs ih =>
    intro b h
    cases b with
    | nil => simp [jsStrLt] at h
    | cons y ys =>
      unfold jsStrLt at h ⊢
      by_cases hxy : x.toNat < y.toNat
      · rw [if_neg (by omega), if_pos hxy]
      · rw [if_neg hxy] at h
        by_cases hyx : y.toNat < x.toNat
        · rw [if_pos hyx] at h; cases h
        · rw [if_neg hyx] at h
          rw [if_neg hxy, if_neg hyx]
          exact ih ys h

/-- C10 (amended): the pair passed to the factory is ascending in the JS
string order of the checksummed address strings (the second component is
never string-smaller than the first). -/
theorem pair_sort_ascending_string_order (a b : List Char) :
    jsStrLt (sortTokensForPool a b).2 (sortTokensForPool a b).1 = false := by
  unfold sortTokensForPool
  by_cases h : jsStrLt a b = true
  · rw [if_pos h]; exact jsStrLt_asymm a b h
  · rw [if_neg h]; exact Bool.eq_false_iff.mpr h

/-- C10 counterexample: with the standard checksummed forms of the WETH and
WBNB addresses, the code orders WETH first although its numeric address
value is strictly greater, so the pair passed to the factory is not in
ascending numeric order. -/
theorem pair_sort_not_numeric_counterexample :
    sortTokensForPool wethChecksum wbnbChecksum = (wethChecksum, wbnbChecksum) ∧
    hexVal wbnbChecksum < hexVal wethChecksum := by
  constructor
  · rfl
  · decide

/-- C2 (amended): the quoting chains of the buy and sell entry points never
raise for any oracle outcome (every level-2 failure falls through to the
minimal level-3 value), while the tier-pinned variants recover only errors
inside the price calculation itself: after a quoter failure they raise
exactly when the pool lookup fails, the pool is absent, or the slot0 read
fails. -/
theorem quoting_fallback_never_raises :
    (∀ e fee decs amt, ∃ v, quoteBuyAuto e fee decs amt = .ok v) ∧
    (∀ e fee decs amt, ∃ v, quoteSellAuto e fee decs amt = .ok v) ∧
    (∀ e fee decs amt, (∃ v, quoteBuyPinned e fee decs amt = .ok v) ↔
      ((∃ v, e.quoter = .ok v) ∨
        ((∃ p, e.getPool fee = .ok (some p)) ∧ (∃ s, e.slot0 fee = .ok s)))) ∧
    (∀ e fee decs amt, (∃ v, quoteSellPinned e fee decs amt = .ok v) ↔
      ((∃ v, e.quoter = .ok v) ∨
        ((∃ p, e.getPool fee = .ok (some p)) ∧ (∃ s, e.slot0 fee = .ok s)))) := by
  refine ⟨fun e fee decs amt => ?_, fun e fee decs amt => ?_,
    fun e fee decs amt => ?_, fun e fee decs amt => ?_⟩
  · unfold quoteBuyAuto
    rcases e.quoter with u | q
    · rcases hp : e.getPool fee with u' | op
      · exact ⟨1000, rfl⟩
      · rcases op with _ | p
        · exact ⟨1000, rfl⟩
        · rcases hs : e.slot0 fee with u'' | s
          · exact ⟨1000, rfl⟩
          · rcases hc : buyCalcEstimate e.wbnbIsToken0 decs s amt with u3 | v
            · exact ⟨1000, by simp [hc]⟩
            · exact ⟨v, by simp [hc]⟩
    · exact ⟨q, rfl⟩
  · unfold quoteSellAuto
    rcases e.quoter with u | q
    · rcases hp : e.getPool fee with u' | op
      · exact ⟨1000, rfl⟩
      · rcases op with _ | p
        · exact ⟨1000, rfl⟩
        · rcases hs : e.slot0 fee with u'' | s
          · exact ⟨1000, rfl⟩
          · rcases hc : sellCalcEstimate (!e.wbnbIsToken0) decs s amt with u3 | v
            · exact ⟨1000, by simp [hc]⟩
            · exact ⟨v, by simp [hc]⟩
    · exact ⟨q, rfl⟩
  · unfold quoteBuyPinned
    rcases e.quoter with u | q
    · rcases hp : e.getPool fee with u' | op
      · simp
      · rcases op with _ | p
        · simp
        · rcases hs : e.slot0 fee with u'' | s
          · simp
          · rcases hc : buyCalcEstimate e.wbnbIsToken0 decs s amt with u3 | v <;> simp [hc]
    · simp
  · unfold quoteSellPinned
    rcases e.quoter with u | q
    · rcases hp : e.getPool fee with u' | op
      · simp
      · rcases op with _ | p
        · simp
        · rcases hs : e.slot0 fee with u'' | s
          · simp
          · rcases hc : sellCalcEstimate (!e.wbnbIsToken0) decs s amt with u3 | v <;> simp [hc]
    · simp

theorem quoting_fallback_never_raises_witness :
    ∃ v, quoteBuyAuto envNoQuote 2500 18 1000 = .ok v :=
  quoting_fallback_never_raises.1 envNoQuote 2500 18 1000

/-- C2 counterexample: in the tier-pinned buy variant, a rejected quoter
call followed by a factory answer of "no pool" raises a could-not-estimate
error even though the path is well formed, so the three-level fallback does
not hold for every quoting entry point. -/
theorem quoting_pinned_raises_counterexample :
    quoteBuyPinned envNoQuote 2500 18 1000 = .error .couldNotEstimate := by
  rfl

/-- C3: for every environment, `sellToken` submits no transaction and never
returns a transaction hash; and whenever the signer loads, the token info
resolves and the amount converts (in particular for every valid key, token,
amount and slippage), it raises the reference error for the undefined
identifier `tokenContract` before the balance check completes. -/
theorem sellToken_always_raises :
    (∀ e amt b, (sellToken e amt b).2 = [] ∧ ∀ h, (sellToken e amt b).1 ≠ .ok h) ∧
    (∀ e amt b, (∃ a, e.account = .ok a) →
      (∃ d u, e.tokenDecimals = .ok d ∧ toTokenUnits amt d = .ok u) →
      (sellToken e amt b).1 = .error .refErrorTokenContract) := by
  constructor
  · intro e amt b
    rcases ha : e.account with u | a
    · exact ⟨by simp [sellToken, ha], by simp [sellToken, ha]⟩
    · rcases hd : e.tokenDecimals with u | d
      · exact ⟨by simp [sellToken, ha, hd], by simp [sellToken, ha, hd]⟩
      · rcases hconv : toTokenUnits amt d with u | units
        · exact ⟨by simp [sellToken, ha, hd, hconv], by simp [sellToken, ha, hd, hconv]⟩
        · exact ⟨by simp [sellToken, ha, hd, hconv], by simp [sellToken, ha, hd, hconv]⟩
  · intro e amt b ⟨a, ha⟩ ⟨d, u, hd, hu⟩
    simp [sellToken, ha, hd, hu]

theorem sellToken_always_raises_witness :
    (sellToken envRisky ("3.5".toList) 100).1 = .error .refErrorTokenContract :=
  sellToken_always_raises.2 envRisky ("3.5".toList) 100 ⟨1, rfl⟩
    ⟨9, "3500000000".toList, rfl, by decide⟩

/-- C9 (amended): a positive honeypot heuristic aborts both buy entry points
before any transaction is submitted; the sell entry points never consult the
heuristic at all (their outcome is independent of the bytecode read); and a
read failure inside the heuristic resolves to not-risky. -/
theorem honeypot_gates_buy_paths_only :
    (∀ e amtWei bps, checkForHoneypot e = true →
      (buyToken e amtWei bps).2 = [] ∧ ∀ h, (buyToken e amtWei bps).1 ≠ .ok h) ∧
    (∀ e amtWei bps fee, checkForHoneypot e = true →
      (buyTokenWithFeeTier e amtWei bps fee).2 = [] ∧
        ∀ h, (buyTokenWithFeeTier e amtWei bps fee).1 ≠ .ok h) ∧
    (∀ e c1 c2 amt bps fee,
      sellTokenWithFeeTier (withCode e c1) amt bps fee
        = sellTokenWithFeeTier (withCode e c2) amt bps fee) ∧
    (∀ e c1 c2 amt bps,
      sellToken (withCode e c1) amt bps = sellToken (withCode e c2) amt bps) ∧
    (∀ e, e.code = .error () → checkForHoneypot e = false) := by
  refine ⟨?_, ?_, fun e c1 c2 amt bps fee => rfl, fun e c1 c2 amt bps => rfl, ?_⟩
  · intro e amtWei bps hrisk
    rcases ha : e.account with u | a
    · simp [buyToken, ha]
    · rcases hb : e.bnbBalance with u | bal
      · simp [buyToken, ha, hb]
      · by_cases hlt : bal < amtWei
        · simp [buyToken, ha, hb, hlt]
        · rcases hd : e.tokenDecimals with u | d
          · simp [buyToken, ha, hb, hlt, hd]
          · rcases hct : chooseValidTier e (findBestFeeTier e.probe) with _ | fee
            · simp [buyToken, ha, hb, hlt, hd, hct]
            · simp [buyToken, ha, hb, hlt, hd, hct, hrisk]
  · intro e amtWei bps fee hrisk
    rcases ha : e.account with u | a
    · simp [buyTokenWithFeeTier, ha]
    · rcases hb : e.bnbBalance with u | bal
      · simp [buyTokenWithFeeTier, ha, hb]
      · by_cases hlt : bal < amtWei
        · simp [buyTokenWithFeeTier, ha, hb, hlt]
        · rcases hd : e.tokenDecimals with u | d
          · simp [buyTokenWithFeeTier, ha, hb, hlt, hd]
          · by_cases hv : validatePancakeV3Pool e fee
            · simp [buyTokenWithFeeTier, ha, hb, hlt, hd, hv, hrisk]
            · simp [buyTokenWithFeeTier, ha, hb, hlt, hd, hv]
  · intro e h
    simp [checkForHoneypot, h]

theorem honeypot_gates_buy_paths_only_witness :
    (buyToken envRisky 1000 100).2 = [] ∧
      ∀ h, (buyToken envRisky 1000 100).1 ≠ .ok h :=
  honeypot_gates_buy_paths_only.1 envRisky 1000 100 (by decide)

/-- C9 counterexample: an environment whose token the heuristic flags as
risky (its bytecode contains all three marker substrings) still sells
successfully through the tier-pinned sell path, submitting a swap
transaction — so a positive heuristic result does not abort sale orders. -/
theorem honeypot_ignored_on_sell_counterexample :
    checkForHoneypot envRisky = true ∧
    sellTokenWithFeeTier envRisky ("3.5".toList) 100 2500
      = (.ok 777, [Tx.swap 5 3500000000 41580]) := by
  exact ⟨rfl, rfl⟩

theorem liqMax_nil (env : Nat → TierProbe) : liqMax env [] = 0 := rfl

theorem liqMax_cons (env : Nat → TierProbe) (t : Nat) (ts : List Nat) :
    liqMax env (t :: ts) = max (readLiq (env t)) (liqMax env ts) := rfl

/-- The running maximum of the scan is the maximum of the start value and
the liquidity figures of the scanned tiers. -/
theorem selectAux_snd (env : Nat → TierProbe) :
    ∀ (l : List Nat) (b m : Nat), (selectAux env l b m).2 = max m (liqMax env l) := by
  intro l
  induction l with
  | nil => intro b m; simp [selectAux, liqMax]
  | cons t ts ih =>
    intro b m
    rw [liqMax_cons]
    by_cases h : m < readLiq (env t)
    · rw [show selectAux env (t :: ts) b m = selectAux env ts t (readLiq (env t)) from by
        simp [selectAux, h]]
      rw [ih]
      omega
    · rw [show selectAux env (t :: ts) b m = selectAux env ts b m from by
        simp [selectAux, h]]
      rw [ih]
      omega

/-- When no scanned tier beats the start value, the scan keeps the start
tier. -/
theorem selectAux_fst_of_le (env : Nat → TierProbe) :
    ∀ (l : List Nat) (b m : Nat), liqMax env l ≤ m → (selectAux env l b m).1 = b := by
  intro l
  induction l with
  | nil => intro b m _; rfl
  | cons t ts ih =>
    intro b m h
    rw [liqMax_cons] at h
    have hr : ¬ m < readLiq (env t) := by omega
    rw [show selectAux env (t :: ts) b m = selectAux env ts b m from by
      simp [selectAux, hr]]
    exact ih b m (by omega)

/-- When some scanned tier beats the start value, the scan returns the first
tier attaining the maximum (first-seen tie-breaking). -/
theorem selectAux_fst_of_lt (env : Nat → TierProbe) :
    ∀ (l : List Nat) (b m M : Nat), M = liqMax env l → m < M →
      ∃ t, l.find? (fun t => readLiq (env t) == M) = some t ∧
        (selectAux env l b m).1 = t := by
  intro l
  induction l with
  | nil => intro b m M hM hlt; rw [liqMax_nil] at hM; omega
  | cons t ts ih =>
    intro b m M hM hlt
    rw [liqMax_cons] at hM
    by_cases hbr : m < readLiq (env t)
    · by_cases hX : liqMax env ts ≤ readLiq (env t)
      · have hMr : M = readLiq (env t) := by omega
        refine ⟨t, ?_, ?_⟩
        · rw [List.find?_cons_of_pos]
          simp [hMr]
        · rw [show selectAux env (t :: ts) b m = selectAux env ts t (readLiq (env t)) from by
            simp [selectAux, hbr]]
          exact selectAux_fst_of_le env ts t _ hX
      · push_neg at hX
        have hMX : M = liqMax env ts := by omega
        obtain ⟨t', hf, hfst⟩ := ih t (readLiq (env t)) M hMX (by omega)
        refine ⟨t', ?_, ?_⟩
        · rw [List.find?_cons_of_neg]
          · exact hf
          · simp only [beq_iff_eq]
            omega
        · rw [show selectAux env (t :: ts) b m = selectAux env ts t (readLiq (env t)) from by
            simp [selectAux, hbr]]
          exact hfst
    · have hMX : M = liqMax env ts := by omega
      obtain ⟨t', hf, hfst⟩ := ih b m M hMX (by omega)
      refine ⟨t', ?_, ?_⟩
      · rw [List.find?_cons_of_neg]
        · exact hf
        · simp only [beq_iff_eq]
          omega
      · rw [show selectAux env (t :: ts) b m = selectAux env ts b m from by
          simp [selectAux, hbr]]
        exact hfst

/-- C5: the fee-tier selection agrees, for every probe environment, with the
specification's rule (strictly greatest observed liquidity with first-seen
tie-breaking, first existing pool when no positive liquidity was observed,
0.25% default when no pool exists), and the three reference scenarios
resolve as the specification states. -/
theorem fee_tier_selection_matches_spec :
    (∀ env, findBestFeeTier env = selectBestFeeTierSpec env) ∧
    findBestFeeTier probesScenario1 = 2500 ∧
    findBestFeeTier probesScenario2 = 2500 ∧
    findBestFeeTier probesScenario3 = 500 := by
  refine ⟨fun env => ?_, by decide, by decide, by decide⟩
  simp only [findBestFeeTier, selectBestFeeTierSpec, tierMaxLiquidity]
  by_cases h0 : liqMax env feeTiersList = 0
  · rw [selectAux_snd]
    simp only [h0, Nat.max_zero, Nat.lt_irrefl, if_true, if_false]
    rcases hf : feeTiersList.find? (fun t => hasPoolProbe (env t)) with _ | t <;>
      simp [hf, h0]
  · have hlt : 0 < liqMax env feeTiersList := Nat.pos_of_ne_zero h0
    obtain ⟨t, hf, hfst⟩ := selectAux_fst_of_lt env feeTiersList 2500 0 _ rfl hlt
    rw [selectAux_snd, hfst]
    simp [h0, hlt, hf]

theorem fee_tier_selection_matches_spec_witness :
    findBestFeeTier probesScenario1 = selectBestFeeTierSpec probesScenario1 :=
  fee_tier_selection_matches_spec.1 probesScenario1

theorem digit_cases (c : Char) (h : isDigitCh c = true) :
    c = '0' ∨ c = '1' ∨ c = '2' ∨ c = '3' ∨ c = '4' ∨
    c = '5' ∨ c = '6' ∨ c = '7' ∨ c = '8' ∨ c = '9' := by
  simp only [isDigitCh, Bool.or_eq_true, decide_eq_true_eq] at h
  tauto

theorem digitVal_le_nine {c : Char} (h : isDigitCh c = true) : digitVal c ≤ 9 := by
  rcases digit_cases c h with rfl | rfl | rfl | rfl | rfl | rfl | rfl | rfl | rfl | rfl <;>
    decide

theorem digitVal_eq_zero {c : Char} (h : isDigitCh c = true) (h0 : digitVal c = 0) :
    c = '0' := by
  rcases digit_cases c h with rfl | rfl | rfl | rfl | rfl | rfl | rfl | rfl | rfl | rfl <;>
    first
    | rfl
    | exact absurd h0 (by decide)

theorem isDigitCh_ne_dot {c : Char} (h : isDigitCh c = true) : c ≠ '.' := by
  rcases digit_cases c h with rfl | rfl | rfl | rfl | rfl | rfl | rfl | rfl | rfl | rfl <;>
    decide

theorem isDigits_cons {c : Char} {t : List Char} :
    isDigits (c :: t) = true ↔ (isDigitCh c = true ∧ isDigits t = true) := by
  simp [isDigits]

theorem all_ne_dot {l : List Char} (h : isDigits l = true) : ∀ c ∈ l, ¬ (c = '.') := by
  intro c hc
  exact isDigitCh_ne_dot (by simpa using List.all_eq_true.mp h c hc)

theorem natVal_fold (l : List Char) : ∀ acc : Nat,
    l.foldl (fun acc c => acc * 10 + digitVal c) acc = acc * 10 ^ l.length + natVal l := by
  induction l with
  | nil => intro acc; simp [natVal]
  | cons c t ih =>
    intro acc
    simp only [List.foldl_cons, List.length_cons]
    rw [ih (acc * 10 + digitVal c)]
    have hv : natVal (c :: t) = digitVal c * 10 ^ t.length + natVal t := by
      show List.foldl _ (0 * 10 + digitVal c) t = _
      rw [ih (0 * 10 + digitVal c)]
      ring
    rw [hv]
    ring

theorem natVal_cons (c : Char) (t : List Char) :
    natVal (c :: t) = digitVal c * 10 ^ t.length + natVal t := by
  show List.foldl _ (0 * 10 + digitVal c) t = _
  rw [natVal_fold t (0 * 10 + digitVal c)]
  ring

theorem natVal_append (a b : List Char) :
    natVal (a ++ b) = natVal a * 10 ^ b.length + natVal b := by
  show List.foldl _ 0 (a ++ b) = _
  rw [List.foldl_append, natVal_fold b]
  rfl

theorem natVal_replicate_zero (k : Nat) : natVal (List.replicate k '0') = 0 := by
  induction k with
  | zero => rfl
  | succ n ih =>
    rw [List.replicate_succ, natVal_cons, ih]
    have h0 : digitVal '0' = 0 := rfl
    rw [h0]
    ring

theorem natVal_all_zero {l : List Char} (h : ∀ c ∈ l, c = '0') : natVal l = 0 := by
  induction l with
  | nil => rfl
  | cons c t ih =>
    rw [natVal_cons, h c (List.mem_cons_self c t),
      ih (fun x hx => h x (List.mem_cons_of_mem c hx))]
    have h0 : digitVal '0' = 0 := rfl
    rw [h0]
    ring

theorem natVal_lt (l : List Char) (h : isDigits l = true) : natVal l < 10 ^ l.length := by
  induction l with
  | nil => simp [natVal]
  | cons c t ih =>
    obtain ⟨h1, h2⟩ := isDigits_cons.mp h
    have hd9 := digitVal_le_nine h1
    have ht := ih h2
    calc natVal (c :: t) = digitVal c * 10 ^ t.length + natVal t := natVal_cons c t
    _ < digitVal c * 10 ^ t.length + 10 ^ t.length := by omega
    _ = (digitVal c + 1) * 10 ^ t.length := by ring
    _ ≤ 10 * 10 ^ t.length := Nat.mul_le_mul_right _ (by omega)
    _ = 10 ^ (c :: t).length := by rw [List.length_cons, pow_succ]; ring

theorem natVal_dropWhile_zero (l : List Char) :
    natVal (l.dropWhile (fun c => c = '0')) = natVal l := by
  induction l with
  | nil => rfl
  | cons c t ih =>
    rw [List.dropWhile_cons]
    by_cases h : c = '0'
    · rw [if_pos (by simp [h]), ih, h, natVal_cons]
      have h0 : digitVal '0' = 0 := rfl
      rw [h0]
      ring
    · rw [if_neg (by simp [h])]

theorem natVal_stripz (l : List Char) : natVal (stripLeadingZeros l) = natVal l := by
  unfold stripLeadingZeros
  rcases hd : l.dropWhile (fun c => c = '0') with _ | ⟨c, r⟩
  · have hall : ∀ c ∈ l, c = '0' := by
      intro c hc
      have hmem := List.dropWhile_eq_nil_iff.mp hd c hc
      simpa using hmem
    show natVal ['0'] = natVal l
    rw [show natVal ['0'] = 0 from rfl, natVal_all_zero hall]
  · show natVal (c :: r) = natVal l
    rw [← hd, natVal_dropWhile_zero]

theorem stripz_ne_nil (l : List Char) : stripLeadingZeros l ≠ [] := by
  unfold stripLeadingZeros
  rcases hd : l.dropWhile (fun c => c = '0') with _ | ⟨c, r⟩ <;> simp

theorem dropWhile_head_not (p : Char → Bool) :
    ∀ (l : List Char) c t, l.dropWhile p = c :: t → p c = false := by
  intro l
  induction l with
  | nil => intro c t h; cases h
  | cons a l' ih =>
    intro c t h
    rw [List.dropWhile_cons] at h
    by_cases hp : p a
    · rw [if_pos hp] at h
      exact ih c t h
    · rw [if_neg hp] at h
      injection h with h1 h2
      subst h1
      exact Bool.eq_false_iff.mpr hp

theorem stripz_head (l : List Char) :
    stripLeadingZeros l = ['0'] ∨ (stripLeadingZeros l).headI ≠ '0' := by
  unfold stripLeadingZeros
  rcases hd : l.dropWhile (fun c => c = '0') with _ | ⟨c, r⟩
  · left; rfl
  · right
    have hc := dropWhile_head_not _ l c r hd
    simpa using hc

theorem isDigits_dropWhile (l : List Char) (h : isDigits l = true) (p : Char → Bool) :
    isDigits (l.dropWhile p) = true := by
  induction l with
  | nil => rfl
  | cons c t ih =>
    obtain ⟨h1, h2⟩ := isDigits_cons.mp h
    rw [List.dropWhile_cons]
    by_cases hp : p c
    · rw [if_pos hp]
      exact ih h2
    · rw [if_neg hp]
      exact h

theorem isDigits_stripz (l : List Char) (h : isDigits l = true) :
    isDigits (stripLeadingZeros l) = true := by
  unfold stripLeadingZeros
  rcases hd : l.dropWhile (fun c => c = '0') with _ | ⟨c, r⟩
  · rfl
  · show isDigits (c :: r) = true
    rw [← hd]
    exact isDigits_dropWhile l h _

theorem natVal_zero_form {r : List Char} (hd : isDigits r = true) (hne : r ≠ [])
    (hh : r = ['0'] ∨ r.headI ≠ '0') (h0 : natVal r = 0) : r = ['0'] := by
  rcases hh with h | h
  · exact h
  · exfalso
    rcases r with _ | ⟨c, t⟩
    · exact hne rfl
    · rw [natVal_cons] at h0
      obtain ⟨h1, h2⟩ := isDigits_cons.mp hd
      have hpow : 0 < 10 ^ t.length := pow_pos (by norm_num) _
      have hprod : digitVal c * 10 ^ t.length = 0 := by omega
      have hdv : digitVal c = 0 := by
        rcases Nat.mul_eq_zero.mp hprod with h' | h'
        · exact h'
        · omega
      have hc0 : c = '0' := digitVal_eq_zero h1 hdv
      subst hc0
      simp at h

theorem stripz_eq_singleton_zero {s : List Char} (hd : isDigits s = true)
    (h0 : natVal s = 0) : stripLeadingZeros s = ['0'] :=
  natVal_zero_form (isDigits_stripz s hd) (stripz_ne_nil s) (stripz_head s)
    (by rw [natVal_stripz]; exact h0)

theorem takeWhile_all {p : Char → Bool} :
    ∀ (l : List Char), (∀ a ∈ l, p a = true) → l.takeWhile p = l := by
  intro l
  induction l with
  | nil => intro _; rfl
  | cons a l' ih =>
    intro h
    rw [List.takeWhile_cons, if_pos (h a (List.mem_cons_self a l'))]
    rw [ih (fun x hx => h x (List.mem_cons_of_mem a hx))]

theorem takeWhile_append_stop {p : Char → Bool} :
    ∀ (l r : List Char), (∀ a ∈ l, p a = true) → ∀ c, p c = false →
      (l ++ c :: r).takeWhile p = l := by
  intro l
  induction l with
  | nil => intro r _ c hc; simp [List.takeWhile_cons, hc]
  | cons a l' ih =>
    intro r hall c hc
    rw [List.cons_append, List.takeWhile_cons, if_pos (hall a (List.mem_cons_self a l'))]
    rw [ih r (fun x hx => hall x (List.mem_cons_of_mem a hx)) c hc]

theorem dropWhile_append_stop {p : Char → Bool} :
    ∀ (l r : List Char), (∀ a ∈ l, p a = true) → ∀ c, p c = false →
      (l ++ c :: r).dropWhile p = c :: r := by
  intro l
  induction l with
  | nil => intro r _ c hc; simp [List.dropWhile_cons, hc]
  | cons a l' ih =>
    intro r hall c hc
    rw [List.cons_append, List.dropWhile_cons, if_pos (hall a (List.mem_cons_self a l'))]
    exact ih r (fun x hx => hall x (List.mem_cons_of_mem a hx)) c hc

theorem dropWhile_append_all {p : Char → Bool} :
    ∀ (l r : List Char), (∀ a ∈ l, p a = true) →
      (l ++ r).dropWhile p = r.dropWhile p := by
  intro l
  induction l with
  | nil => intro r _; rfl
  | cons a l' ih =>
    intro r hall
    rw [List.cons_append, List.dropWhile_cons, if_pos (hall a (List.mem_cons_self a l'))]
    exact ih r (fun x hx => hall x (List.mem_cons_of_mem a hx))

theorem wholePart_concat {w : List Char} (hw : isDigits w = true) (f : List Char) :
    wholePart (w ++ '.' :: f) = w := by
  unfold wholePart
  exact takeWhile_append_stop w f
    (fun a ha => by simpa using all_ne_dot hw a ha) '.' (by simp)

theorem fracPart_concat {w f : List Char} (hw : isDigits w = true)
    (hf : isDigits f = true) : fracPart (w ++ '.' :: f) = f := by
  unfold fracPart
  rw [dropWhile_append_stop w f
    (fun a ha => by simpa using all_ne_dot hw a ha) '.' (by simp)]
  show (f.drop 0).takeWhile _ = f
  rw [List.drop_zero]
  exact takeWhile_all f (fun a ha => by simpa using all_ne_dot hf a ha)

theorem contains_dot_concat (w f : List Char) : (w ++ '.' :: f).contains '.' = true := by
  simp

theorem not_contains_dot {w : List Char} (hw : isDigits w = true) :
    w.contains '.' = false := by
  have h : ('.' : Char) ∉ w := fun hmem => all_ne_dot hw '.' hmem rfl
  simp [h]

theorem isDigits_take (f : List Char) (d : Nat) (hf : isDigits f = true) :
    isDigits (f.take d) = true := by
  simp only [isDigits, List.all_eq_true] at hf ⊢
  exact fun c hc => hf c (List.mem_of_mem_take hc)

theorem isDigits_drop (f : List Char) (d : Nat) (hf : isDigits f = true) :
    isDigits (f.drop d) = true := by
  simp only [isDigits, List.all_eq_true] at hf ⊢
  exact fun c hc => hf c (List.mem_of_mem_drop hc)

theorem isDigits_append {a b : List Char} (ha : isDigits a = true)
    (hb : isDigits b = true) : isDigits (a ++ b) = true := by
  simp only [isDigits, List.all_eq_true] at ha hb ⊢
  intro c hc
  rcases List.mem_append.mp hc with h | h
  · exact ha c h
  · exact hb c h

theorem isDigits_replicate_zero (k : Nat) : isDigits (List.replicate k '0') = true := by
  simp only [isDigits, List.all_eq_true]
  intro c hc
  rw [List.eq_of_mem_replicate hc]
  rfl

theorem div_pow_shift {x d m : Nat} (h : m ≤ d) :
    x * 10 ^ d / 10 ^ m = x * 10 ^ (d - m) := by
  have hpow : 10 ^ d = 10 ^ (d - m) * 10 ^ m := by
    rw [← pow_add]
    congr 1
    omega
  rw [hpow, ← mul_assoc, Nat.mul_div_cancel _ (pow_pos (by norm_num) m)]

theorem natVal_take_div (f : List Char) (d : Nat) (hd : d ≤ f.length)
    (hf : isDigits f = true) :
    natVal (f.take d) = natVal f * 10 ^ d / 10 ^ f.length := by
  have hsplit : natVal f = natVal (f.take d) * 10 ^ (f.length - d) + natVal (f.drop d) := by
    conv_lhs => rw [← List.take_append_drop d f]
    rw [natVal_append, List.length_drop]
  have hlt : natVal (f.drop d) < 10 ^ (f.length - d) := by
    have hdig := isDigits_drop f d hf
    have := natVal_lt (f.drop d) hdig
    rwa [List.length_drop] at this
  have hpow : 10 ^ f.length = 10 ^ (f.length - d) * 10 ^ d := by
    rw [← pow_add]
    congr 1
    omega
  rw [hsplit, hpow]
  rw [Nat.mul_div_mul_right _ _ (pow_pos (by norm_num) d)]
  rw [mul_comm (natVal (f.take d)) (10 ^ (f.length - d))]
  rw [Nat.mul_add_div (pow_pos (by norm_num) _)]
  rw [Nat.div_eq_of_lt hlt]
  omega

theorem stripz_concat_props (w g : List Char) (hw : isDigits w = true)
    (hg : isDigits g = true) :
    natVal (stripLeadingZeros (stripLeadingZeros w ++ g))
        = natVal w * 10 ^ g.length + natVal g ∧
    stripLeadingZeros (stripLeadingZeros w ++ g) ≠ [] ∧
    (stripLeadingZeros (stripLeadingZeros w ++ g) = ['0'] ∨
      (stripLeadingZeros (stripLeadingZeros w ++ g)).headI ≠ '0') ∧
    (natVal w = 0 → natVal g = 0 →
      stripLeadingZeros (stripLeadingZeros w ++ g) = ['0']) := by
  refine ⟨?_, stripz_ne_nil _, stripz_head _, ?_⟩
  · rw [natVal_stripz, natVal_append, natVal_stripz]
  · intro hw0 hg0
    apply stripz_eq_singleton_zero (isDigits_append (isDigits_stripz w hw) hg)
    rw [natVal_append, natVal_stripz, hw0, hg0]
    ring

theorem stripz_concat_props' (w g : List Char) (hw : isDigits w = true)
    (hg : isDigits g = true) :
    natVal (stripLeadingZeros (w ++ g)) = natVal w * 10 ^ g.length + natVal g ∧
    stripLeadingZeros (w ++ g) ≠ [] ∧
    (stripLeadingZeros (w ++ g) = ['0'] ∨
      (stripLeadingZeros (w ++ g)).headI ≠ '0') ∧
    (natVal w = 0 → natVal g = 0 → stripLeadingZeros (w ++ g) = ['0']) := by
  refine ⟨by rw [natVal_stripz, natVal_append], stripz_ne_nil _, stripz_head _, ?_⟩
  intro hw0 hg0
  apply stripz_eq_singleton_zero (isDigits_append hw hg)
  rw [natVal_append, hw0, hg0]
  ring

theorem fadj_value (f : List Char) (d : Nat) (hf : isDigits f = true) :
    natVal (if f.length > d then f.take d else f ++ List.replicate (d - f.length) '0')
      = natVal f * 10 ^ d / 10 ^ f.length ∧
    (if f.length > d then f.take d else f ++ List.replicate (d - f.length) '0').length = d ∧
    isDigits
      (if f.length > d then f.take d else f ++ List.replicate (d - f.length) '0') = true := by
  by_cases h : f.length > d
  · refine ⟨?_, ?_, ?_⟩ <;> rw [if_pos h]
    · exact natVal_take_div f d (by omega) hf
    · rw [List.length_take]; omega
    · exact isDigits_take f d hf
  · refine ⟨?_, ?_, ?_⟩ <;> rw [if_neg h]
    · rw [natVal_append, natVal_replicate_zero, List.length_replicate,
        div_pow_shift (by omega : f.length ≤ d)]
      ring
    · rw [List.length_append, List.length_replicate]; omega
    · exact isDigits_append hf (isDigits_replicate_zero _)

theorem manual_shape {w f : List Char} (hw : isDigits w = true)
    (hf : isDigits f = true) (d : Nat) :
    toTokenUnitsManual (w ++ '.' :: f) d
      = stripLeadingZeros (stripLeadingZeros w ++
          (if f.length > d then f.take d else f ++ List.replicate (d - f.length) '0')) := by
  simp only [toTokenUnitsManual, contains_dot_concat w f, if_true,
    wholePart_concat hw f, fracPart_concat hw hf]

/-- C6 (amended): for non-standard decimal counts the conversion truncates
fractional digits beyond `d` and right-pads missing ones, so the result's
numeric value is the floor of the amount scaled by `10 ^ d`; the result is a
nonempty string without leading zeros, and the string "0" for a zero amount.
For standard decimal counts the conversion is exact when the amount has at
most `d` fractional digits, and raises a conversion error (instead of
truncating) when it has more.  In particular the conversion of "1.23456" at
4 decimals is "12345". -/
theorem toTokenUnits_truncates :
    (∀ w f d, isDigits w = true → isDigits f = true →
      standardDecimals.contains d = false →
      ∃ r, toTokenUnits (w ++ '.' :: f) d = .ok r ∧
        natVal r = natVal w * 10 ^ d + natVal f * 10 ^ d / 10 ^ f.length ∧
        r ≠ [] ∧ (r = ['0'] ∨ r.headI ≠ '0') ∧
        (natVal w = 0 → natVal f = 0 → r = ['0'])) ∧
    (∀ w f d, isDigits w = true → isDigits f = true →
      standardDecimals.contains d = true →
      (f.length ≤ d → ∃ r, toTokenUnits (w ++ '.' :: f) d = .ok r ∧
        natVal r = natVal w * 10 ^ d + natVal f * 10 ^ d / 10 ^ f.length ∧
        r ≠ [] ∧ (r = ['0'] ∨ r.headI ≠ '0')) ∧
      (d < f.length → toTokenUnits (w ++ '.' :: f) d = .error ())) ∧
    toTokenUnits ("1.23456".toList) 4 = .ok ("12345".toList) := by
  refine ⟨?_, ?_, by decide⟩
  · intro w f d hw hf hstd
    obtain ⟨hval, hlen, hdig⟩ := fadj_value f d hf
    have hshape : toTokenUnits (w ++ '.' :: f) d
        = .ok (stripLeadingZeros (stripLeadingZeros w ++
            (if f.length > d then f.take d
             else f ++ List.replicate (d - f.length) '0'))) := by
      simp only [toTokenUnits, hstd, Bool.false_eq_true, if_false]
      rw [manual_shape hw hf d]
    obtain ⟨hv, hne, hh, hz⟩ := stripz_concat_props w _ hw hdig
    refine ⟨_, hshape, ?_, hne, hh, ?_⟩
    · rw [hv, hlen, hval]
    · intro hw0 hf0
      exact hz hw0 (by rw [hval, hf0]; simp)
  · intro w f d hw hf hstd
    constructor
    · intro hle
      have hshape : toTokenUnits (w ++ '.' :: f) d
          = .ok (stripLeadingZeros (w ++ (f ++ List.replicate (d - f.length) '0'))) := by
        simp only [toTokenUnits, hstd, if_true, toWeiModel, contains_dot_concat w f,
          wholePart_concat hw f, fracPart_concat hw hf]
        rw [if_neg (by omega : ¬ f.length > d), ← List.append_assoc]
      obtain ⟨hv, hne, hh, _⟩ := stripz_concat_props' w
        (f ++ List.replicate (d - f.length) '0') hw
        (isDigits_append hf (isDigits_replicate_zero _))
      refine ⟨_, hshape, ?_, hne, hh⟩
      rw [hv, natVal_append, natVal_replicate_zero, List.length_append,
        List.length_replicate, div_pow_shift (by omega : f.length ≤ d)]
      have hl : f.length + (d - f.length) = d := by omega
      rw [hl]
      ring
    · intro hgt
      simp only [toTokenUnits, hstd, if_true, toWeiModel, contains_dot_concat w f,
        wholePart_concat hw f, fracPart_concat hw hf]
      rw [if_pos (by omega : f.length > d)]

theorem toTokenUnits_truncates_witness :
    ∃ r, toTokenUnits ("1".toList ++ '.' :: "23456".toList) 4 = .ok r ∧
      natVal r = natVal ("1".toList) * 10 ^ 4 +
        natVal ("23456".toList) * 10 ^ 4 / 10 ^ ("23456".toList).length ∧
      r ≠ [] ∧ (r = ['0'] ∨ r.headI ≠ '0') ∧
      (natVal ("1".toList) = 0 → natVal ("23456".toList) = 0 → r = ['0']) :=
  toTokenUnits_truncates.1 ("1".toList) ("23456".toList) 4 (by decide) (by decide)
    (by decide)

/-- C6 counterexample: at the standard decimal count 3 the conversion of
"1.23456" raises a conversion error (the web3 unit conversion rejects excess
fractional digits) instead of returning the truncated value "1234" the claim
states. -/
theorem toTokenUnits_std_raises_counterexample :
    toTokenUnits ("1.23456".toList) 3 = .error () ∧
    toTokenUnits ("1.23456".toList) 3 ≠ .ok ("1234".toList) := by
  exact ⟨by decide, by decide⟩

theorem dropTrailingZeros_append_replicate (f : List Char) (k : Nat)
    (hf : f.getLast? ≠ some '0') :
    dropTrailingZeros (f ++ List.replicate k '0') = f := by
  unfold dropTrailingZeros
  rw [List.reverse_append, List.reverse_replicate]
  rw [dropWhile_append_all _ _ (fun a ha => by simp [List.eq_of_mem_replicate ha])]
  rcases heq : f.reverse with _ | ⟨c, t⟩
  · rw [List.reverse_eq_nil_iff] at heq
    simp [heq]
  · have hcl : f.getLast? = some c := by
      rw [← List.head?_reverse, heq]
      rfl
    have hc : ¬ (c = '0') := fun hcc => hf (by rw [hcl, hcc])
    rw [List.dropWhile_cons, if_neg (by simpa using hc), ← heq, List.reverse_reverse]

theorem dropTrailingZeros_replicate (k : Nat) :
    dropTrailingZeros (List.replicate k '0') = [] := by
  have := dropTrailingZeros_append_replicate [] k (by simp)
  simpa using this

theorem getLast?_replicate_zero (n : Nat) (hn : 1 ≤ n) :
    (List.replicate n '0').getLast? = some '0' := by
  rw [← List.head?_reverse, List.reverse_replicate]
  rcases n with _ | m
  · omega
  · rw [List.replicate_succ]
    rfl

theorem canonicalWhole_iff {w : List Char} :
    canonicalWhole w = true ↔
      (w = ['0'] ∨ (isDigits w = true ∧ w ≠ [] ∧ w.headI ≠ '0')) := by
  rcases w with _ | ⟨c, t⟩
  · constructor
    · intro h
      exact absurd h (by decide)
    · rintro (h | ⟨-, hne, -⟩)
      · cases h
      · exact absurd rfl hne
  · simp only [canonicalWhole, Bool.or_eq_true, Bool.and_eq_true, beq_iff_eq,
      Bool.not_eq_true', beq_eq_false_iff_ne, List.headI_cons, List.isEmpty_cons,
      Bool.not_false, ne_eq]
    constructor
    · rintro (h | ⟨⟨hd, -⟩, hh⟩)
      · exact Or.inl h
      · exact Or.inr ⟨hd, by simp, hh⟩
    · rintro (h | ⟨hd, -, hh⟩)
      · exact Or.inl h
      · exact Or.inr ⟨⟨hd, trivial⟩, hh⟩

theorem canonicalFrac_iff {f : List Char} :
    canonicalFrac f = true ↔ (isDigits f = true ∧ f.getLast? ≠ some '0') := by
  simp only [canonicalFrac, Bool.and_eq_true, Bool.not_eq_true', beq_eq_false_iff_ne,
    ne_eq]

theorem canonicalWhole_digits {w : List Char} (hw : canonicalWhole w = true) :
    isDigits w = true := by
  rcases canonicalWhole_iff.mp hw with h | ⟨hd, _, _⟩
  · rw [h]; rfl
  · exact hd

theorem trim_agreement (a g : List Char) (hg : g ≠ []) (hdg : isDigits g = true) :
    trimTrailingZerosDot (a ++ '.' :: g)
      = (if dropTrailingZeros g = [] then a else a ++ '.' :: dropTrailingZeros g) := by
  have hrev : (a ++ '.' :: g).reverse = g.reverse ++ '.' :: a.reverse := by
    rw [List.reverse_append, List.reverse_cons, List.append_assoc]
    rfl
  have hsplit := List.takeWhile_append_dropWhile (fun c => decide (c = '0')) g.reverse
  rcases hdw : g.reverse.dropWhile (fun c => decide (c = '0')) with _ | ⟨c, t⟩
  · -- g is all zeros
    have hgz := List.dropWhile_eq_nil_iff.mp hdw
    have hgznil : dropTrailingZeros g = [] := by
      unfold dropTrailingZeros
      rw [hdw]
      rfl
    rw [if_pos hgznil]
    simp only [trimTrailingZerosDot, hrev]
    rw [takeWhile_append_stop _ _ hgz '.' (by simp)]
    rw [if_neg (by simpa [List.reverse_eq_nil_iff] using hg)]
    rw [dropWhile_append_stop _ _ hgz '.' (by simp)]
    simp
  · -- the last nonzero character of g is c
    have hc : ¬ (c = '0') := by
      have := dropWhile_head_not _ _ _ _ hdw
      simpa using this
    have hcg : c ∈ g := by
      have hcrev : c ∈ g.reverse := by
        rw [← hsplit, hdw]
        exact List.mem_append_right _ (List.mem_cons_self c t)
      exact List.mem_reverse.mp hcrev
    have hcdot : ¬ (c = '.') := all_ne_dot hdg c hcg
    have hdt : dropTrailingZeros g = (c :: t).reverse := by
      unfold dropTrailingZeros
      rw [hdw]
    rw [if_neg (by rw [hdt]; simp)]
    simp only [trimTrailingZerosDot, hrev]
    rcases htw : g.reverse.takeWhile (fun c => decide (c = '0')) with _ | ⟨z, zs⟩
    · -- no trailing zeros in g: the string is unchanged
      have hgrev : g.reverse = c :: t := by
        rw [← hsplit, htw, hdw]
        rfl
      have hgid : (c :: t).reverse = g := by
        rw [← hgrev, List.reverse_reverse]
      have htakr : (g.reverse ++ '.' :: a.reverse).takeWhile (fun c => decide (c = '0'))
          = [] := by
        rw [hgrev, List.cons_append, List.takeWhile_cons, if_neg (by simpa using hc)]
      rw [htakr, if_pos rfl, hdt, hgid]
    · -- g has trailing zeros after its last nonzero character
      have hall : ∀ x ∈ (z :: zs), decide (x = '0') = true := by
        intro x hx
        have hxin : x ∈ g.reverse.takeWhile (fun c => decide (c = '0')) := by
          rw [htw]; exact hx
        exact @List.mem_takeWhile_imp Char (fun c => decide (c = '0')) g.reverse x hxin
      have hgrev2 : g.reverse ++ '.' :: a.reverse
          = (z :: zs) ++ c :: (t ++ '.' :: a.reverse) := by
        rw [← hsplit, htw, hdw, List.append_assoc, List.cons_append]
        simp
      have htakr : (g.reverse ++ '.' :: a.reverse).takeWhile (fun c => decide (c = '0'))
          = z :: zs := by
        rw [hgrev2]
        exact takeWhile_append_stop _ _ hall c (by simpa using hc)
      have hdror : (g.reverse ++ '.' :: a.reverse).dropWhile (fun c => decide (c = '0'))
          = c :: (t ++ '.' :: a.reverse) := by
        rw [hgrev2]
        exact dropWhile_append_stop _ _ hall c (by simpa using hc)
      rw [htakr, if_neg (by simp), hdror]
      show (if c = '.' then (t ++ '.' :: a.reverse).reverse
        else (c :: (t ++ '.' :: a.reverse)).reverse) = _
      rw [if_neg hcdot, hdt]
      simp [List.reverse_cons, List.reverse_append, List.append_assoc]

theorem stripz_append_head {w : List Char} (hne : w ≠ []) (hh : w.headI ≠ '0')
    (t : List Char) : stripLeadingZeros (w ++ t) = w ++ t := by
  rcases w with _ | ⟨c, w'⟩
  · exact absurd rfl hne
  · have hc : ¬ (c = '0') := by simpa using hh
    unfold stripLeadingZeros
    rw [List.cons_append, List.dropWhile_cons, if_neg (by simpa using hc)]

theorem fromWei_zero (d : Nat) (hd : 1 ≤ d) : fromWeiModel ['0'] d = ['0'] := by
  have hpad : padLeftZeros ['0'] d = List.replicate (d + 1) '0' := by
    unfold padLeftZeros
    have h1 : (['0'] : List Char).length = 1 := rfl
    rw [h1]
    have h2 : d + 1 - 1 = d := by omega
    rw [h2, show (['0'] : List Char) = List.replicate 1 '0' from rfl, ← List.replicate_add]
  simp only [fromWeiModel]
  rw [hpad, List.length_replicate]
  have hp1 : d + 1 - d = 1 := by omega
  rw [hp1, List.take_replicate, List.drop_replicate]
  have hmin : 1 ⊓ (d + 1) = 1 := by omega
  have hsub : d + 1 - 1 = d := by omega
  rw [hmin, hsub, dropTrailingZeros_replicate]
  rw [if_pos rfl]
  rfl

theorem fromWei_roundtrip_core (d : Nat) (w f : List Char) (hd : 1 ≤ d)
    (hw : canonicalWhole w = true) (hf : canonicalFrac f = true)
    (hlen : f.length ≤ d) :
    fromWeiModel (stripLeadingZeros (w ++ (f ++ List.replicate (d - f.length) '0'))) d
      = mkDecimal w f := by
  obtain ⟨hfd, hfl⟩ := canonicalFrac_iff.mp hf
  rcases canonicalWhole_iff.mp hw with hw0 | ⟨hwd, hwne, hwh⟩
  · subst hw0
    by_cases hfe : f = []
    · subst hfe
      have hs : stripLeadingZeros
          (['0'] ++ (([] : List Char) ++ List.replicate (d - List.length ([] : List Char)) '0'))
          = ['0'] := by
        apply stripz_eq_singleton_zero
        · exact isDigits_append (by rfl)
            (isDigits_append (by rfl) (isDigits_replicate_zero _))
        · rw [natVal_append, natVal_append, natVal_replicate_zero]
          norm_num [show natVal ['0'] = 0 from rfl, show natVal ([] : List Char) = 0 from rfl]
      rw [hs, show mkDecimal ['0'] ([] : List Char) = ['0'] from rfl]
      exact fromWei_zero d hd
    · -- w is "0" and the fraction is nonempty
      have hsplitf := List.takeWhile_append_dropWhile (fun c => decide (c = '0')) f
      rcases hdwf : f.dropWhile (fun c => decide (c = '0')) with _ | ⟨c, t⟩
      · exfalso
        have hallz := List.dropWhile_eq_nil_iff.mp hdwf
        have hrep : f = List.replicate f.length '0' :=
          List.eq_replicate_of_mem (fun b hb => by simpa using hallz b hb)
        apply hfl
        rw [hrep]
        exact getLast?_replicate_zero f.length
          (by have := List.length_pos.mpr hfe; omega)
      · have hc : ¬ (c = '0') := by simpa using dropWhile_head_not _ _ _ _ hdwf
        set tw := f.takeWhile (fun c => decide (c = '0')) with htwdef
        have htwrep : tw = List.replicate tw.length '0' :=
          List.eq_replicate_of_mem (fun b hb => by
            simpa using @List.mem_takeWhile_imp Char (fun c => decide (c = '0')) f b hb)
        have hfeq : tw ++ c :: t = f := by
          rw [← hdwf]
          exact hsplitf
        have hflen : f.length = tw.length + (1 + t.length) := by
          rw [← hfeq]
          simp [List.length_append]
          omega
        have h2 : f ++ List.replicate (d - f.length) '0'
            = tw ++ (c :: (t ++ List.replicate (d - f.length) '0')) := by
          have hassoc : (tw ++ c :: t) ++ List.replicate (d - f.length) '0'
              = tw ++ (c :: (t ++ List.replicate (d - f.length) '0')) := by
            rw [List.append_assoc, List.cons_append]
          rw [← hassoc, hfeq]
        have hs0 : stripLeadingZeros (['0'] ++ (f ++ List.replicate (d - f.length) '0'))
            = c :: (t ++ List.replicate (d - f.length) '0') := by
          have h1 : (['0'] ++ (f ++ List.replicate (d - f.length) '0'))
              = '0' :: (f ++ List.replicate (d - f.length) '0') := rfl
          rw [h1]
          unfold stripLeadingZeros
          rw [List.dropWhile_cons, if_pos (by simp)]
          rw [h2, dropWhile_append_stop _ _ (fun b hb => by
            simpa using @List.mem_takeWhile_imp Char (fun c => decide (c = '0')) f b hb)
            c (by simpa using hc)]
        rw [hs0]
        have hpad : padLeftZeros (c :: (t ++ List.replicate (d - f.length) '0')) d
            = '0' :: (f ++ List.replicate (d - f.length) '0') := by
          unfold padLeftZeros
          have hslen : (c :: (t ++ List.replicate (d - f.length) '0')).length
              = d - tw.length := by
            simp [List.length_cons, List.length_append, List.length_replicate]
            omega
          rw [hslen]
          have hcount : d + 1 - (d - tw.length) = tw.length + 1 := by omega
          rw [hcount, List.replicate_succ, List.cons_append]
          congr 1
          conv_rhs => rw [h2]
          rw [htwrep, List.length_replicate]
        simp only [fromWeiModel]
        rw [hpad]
        have hlen2 : ('0' :: (f ++ List.replicate (d - f.length) '0')).length = d + 1 := by
          simp [List.length_cons, List.length_append, List.length_replicate]
          omega
        rw [hlen2]
        have hp1 : d + 1 - d = 1 := by omega
        rw [hp1, List.take_succ_cons, List.take_zero, List.drop_succ_cons, List.drop_zero]
        rw [dropTrailingZeros_append_replicate f _ hfl]
        rw [if_neg hfe]
        simp [mkDecimal, hfe]
  · -- w has a nonzero head
    rw [stripz_append_head hwne hwh _]
    simp only [fromWeiModel]
    have hpad : padLeftZeros (w ++ (f ++ List.replicate (d - f.length) '0')) d
        = w ++ (f ++ List.replicate (d - f.length) '0') := by
      unfold padLeftZeros
      have hz : d + 1 - (w ++ (f ++ List.replicate (d - f.length) '0')).length = 0 := by
        simp only [List.length_append, List.length_replicate]
        have := List.length_pos.mpr hwne
        omega
      rw [hz, List.replicate_zero, List.nil_append]
    rw [hpad]
    have hlen2 : (w ++ (f ++ List.replicate (d - f.length) '0')).length = w.length + d := by
      simp only [List.length_append, List.length_replicate]
      omega
    rw [hlen2]
    have hpos : w.length + d - d = w.length := by omega
    rw [hpos, List.take_left, List.drop_left]
    rw [dropTrailingZeros_append_replicate f _ hfl]
    by_cases hfe : f = []
    · subst hfe
      rw [if_pos rfl]
      simp [mkDecimal]
    · rw [if_neg hfe]
      simp [mkDecimal, hfe]

theorem stripz_self {w : List Char} (hne : w ≠ []) (hh : w.headI ≠ '0') :
    stripLeadingZeros w = w := by
  have h := stripz_append_head hne hh []
  simpa using h

theorem stripz_stripz_append {w : List Char} (hw : canonicalWhole w = true)
    (t : List Char) :
    stripLeadingZeros (stripLeadingZeros w ++ t) = stripLeadingZeros (w ++ t) := by
  rcases canonicalWhole_iff.mp hw with h | ⟨hd, hne, hh⟩
  · subst h
    rfl
  · rw [stripz_self hne hh]

theorem fromTokenUnitsManual_eq_fromWei (s : List Char) (d : Nat) (hd : 1 ≤ d)
    (hdig : isDigits s = true) : fromTokenUnitsManual s d = fromWeiModel s d := by
  by_cases hz : s = ['0']
  · subst hz
    rw [show fromTokenUnitsManual ['0'] d = ['0'] from by
      unfold fromTokenUnitsManual; rw [if_pos rfl]]
    exact (fromWei_zero d hd).symm
  · unfold fromTokenUnitsManual
    rw [if_neg hz]
    have hdigpad : isDigits (padLeftZeros s d) = true := by
      unfold padLeftZeros
      exact isDigits_append (isDigits_replicate_zero _) hdig
    have hplen : d + 1 ≤ (padLeftZeros s d).length := by
      unfold padLeftZeros
      simp [List.length_append, List.length_replicate]
      omega
    have hgl : ((padLeftZeros s d).drop ((padLeftZeros s d).length - d)).length = d := by
      rw [List.length_drop]
      omega
    have hgne : (padLeftZeros s d).drop ((padLeftZeros s d).length - d) ≠ [] := by
      intro hnil
      rw [hnil] at hgl
      simp at hgl
      omega
    have hgdig : isDigits ((padLeftZeros s d).drop ((padLeftZeros s d).length - d))
        = true := isDigits_drop _ _ hdigpad
    rw [trim_agreement _ _ hgne hgdig]
    rfl

theorem toTokenUnits_canonical (d : Nat) (w f : List Char)
    (hw : canonicalWhole w = true) (hf : canonicalFrac f = true)
    (hlen : f.length ≤ d) :
    toTokenUnits (mkDecimal w f) d
      = .ok (stripLeadingZeros (w ++ (f ++ List.replicate (d - f.length) '0'))) := by
  have hwd := canonicalWhole_digits hw
  obtain ⟨hfd, -⟩ := canonicalFrac_iff.mp hf
  by_cases hfe : f = []
  · subst hfe
    rw [show mkDecimal w ([] : List Char) = w from by simp [mkDecimal]]
    unfold toTokenUnits
    split
    · unfold toWeiModel
      simp only [not_contains_dot hwd, Bool.false_eq_true, if_false]
      simp
    · unfold toTokenUnitsManual
      simp only [not_contains_dot hwd, Bool.false_eq_true, if_false]
      simp
  · rw [show mkDecimal w f = w ++ '.' :: f from by simp [mkDecimal, hfe]]
    unfold toTokenUnits
    split
    · unfold toWeiModel
      simp only [contains_dot_concat w f, if_true, wholePart_concat hwd f,
        fracPart_concat hwd hfd]
      rw [if_neg (by omega : ¬ f.length > d), List.append_assoc]
    · rw [manual_shape hwd hfd d, if_neg (by omega : ¬ f.length > d)]
      rw [show stripLeadingZeros w ++ (f ++ List.replicate (d - f.length) '0')
          = stripLeadingZeros w ++ (f ++ List.replicate (d - f.length) '0') from rfl]
      rw [stripz_stripz_append hw]

/-- C7 (amended): for every decimal count `d` at least 1 and every canonical
decimal amount with at most `d` fractional digits (integer part "0" or
without a leading zero, fractional part without a trailing zero), converting
to base units and back is the identity. -/
theorem unit_roundtrip :
    ∀ d w f, 1 ≤ d → canonicalWhole w = true → canonicalFrac f = true →
      f.length ≤ d →
      ∃ u, toTokenUnits (mkDecimal w f) d = .ok u ∧
        fromTokenUnits u d = mkDecimal w f := by
  intro d w f hd hw hf hlen
  refine ⟨_, toTokenUnits_canonical d w f hw hf hlen, ?_⟩
  have hwd := canonicalWhole_digits hw
  obtain ⟨hfd, -⟩ := canonicalFrac_iff.mp hf
  have hdig : isDigits
      (stripLeadingZeros (w ++ (f ++ List.replicate (d - f.length) '0'))) = true :=
    isDigits_stripz _ (isDigits_append hwd
      (isDigits_append hfd (isDigits_replicate_zero _)))
  unfold fromTokenUnits
  split
  · exact fromWei_roundtrip_core d w f hd hw hf hlen
  · rw [fromTokenUnitsManual_eq_fromWei _ d hd hdig]
    exact fromWei_roundtrip_core d w f hd hw hf hlen

theorem unit_roundtrip_witness :
    ∃ u, toTokenUnits (mkDecimal ("1".toList) ("23".toList)) 4 = .ok u ∧
      fromTokenUnits u 4 = mkDecimal ("1".toList) ("23".toList) :=
  unit_roundtrip 4 ("1".toList) ("23".toList) (by decide) (by decide) (by decide)
    (by decide)

/-- C7 counterexample: at a decimal count of 0 the roundtrip fails: the
amount "10" converts to base units "10", but converting back yields "10."
with a dangling decimal point (the trailing-zeros regex does not match a
bare trailing dot), which differs from "10". -/
theorem unit_roundtrip_counterexample :
    toTokenUnits ("10".toList) 0 = .ok ("10".toList) ∧
    fromTokenUnits ("10".toList) 0 = "10.".toList ∧
    "10.".toList ≠ "10".toList := by
  refine ⟨by decide, by decide, by decide⟩

end PST
